import Mathlib

/-!
Verification of the pj-creater template resolution and composition engine.

The definitions below are a shallow embedding of the program's core
(`src/index.ts`): the directory tree builder, template selector, config
cascade collector, config merger, file set resolver and renderer/copier.
Filesystem access and glob matching are abstracted as an explicit `FS`
record of oracles; paths are plain strings manipulated with the same
operations the code performs (`join`/`resolve` normalisation,
first-occurrence string replacement); JavaScript `Map`s are modelled as
insertion-ordered association lists.
-/

namespace PjCreater

/-! ## Insertion-ordered maps (JavaScript `Map` semantics)

`Map.set` overwrites in place (keeping the original position) or appends at
the end; `Map.delete` removes the entry; iteration follows insertion order. -/

/-- `Map.set`: overwrite in place if the key is present (a `Map` holds a
key at most once), else append at the end. -/
def setOM {α : Type} : List (String × α) → String → α → List (String × α)
  | [], k, v => [(k, v)]
  | p :: rest, k, v =>
    if p.1 = k then (k, v) :: rest else p :: setOM rest k v

/-- `Map.delete`: remove the entry with the given key (a `Map` holds a key
at most once). -/
def delOM {α : Type} : List (String × α) → String → List (String × α)
  | [], _ => []
  | p :: rest, k => if p.1 = k then delOM rest k else p :: delOM rest k

/-- `Map.get`: the value currently bound to the key. -/
def lookupOM {α : Type} : List (String × α) → String → Option α
  | [], _ => none
  | p :: rest, k => if p.1 = k then some p.2 else lookupOM rest k

/-- Keys of the map in iteration order. -/
def keysOM {α : Type} (m : List (String × α)) : List String :=
  m.map (fun p => p.1)

/-- Run a sequence of `Map.set` writes in order. -/
def applyWrites {α : Type} (m : List (String × α)) (ws : List (String × α)) :
    List (String × α) :=
  ws.foldl (fun m kv => setOM m kv.1 kv.2) m

/-- Run a sequence of `Map.delete` operations in order. -/
def applyDeletes {α : Type} (m : List (String × α)) (ks : List String) :
    List (String × α) :=
  ks.foldl (fun m k => delOM m k) m

/-- The value written last for a key in a write sequence. -/
def lastAssocW {α : Type} (ws : List (String × α)) (k : String) : Option α :=
  lookupOM ws.reverse k

/-! ## Path strings

The code runs on POSIX node `path`: `join` concatenates and normalises,
`resolve` additionally roots the result.  Both normalise `.`, `..`, doubled
and trailing separators.  We model absolute paths as strings rendered
`"/seg1/seg2"` and implement this normalisation character-for-character. -/

/-- Split a character list on `/`. -/
def splitOnSlash (cs : List Char) : List (List Char) :=
  cs.foldr
    (fun c acc =>
      if c = '/' then [] :: acc
      else
        match acc with
        | [] => [[c]]
        | s :: rest => (c :: s) :: rest)
    [[]]

/-- Non-empty raw segments of a path string. -/
def rawSegs (s : String) : List (List Char) :=
  (splitOnSlash s.data).filter (fun seg => seg ≠ [])

/-- Normalise segments the way node's path normalisation does:
`.` is dropped, `..` removes the previous segment. -/
def normSegs (segs : List (List Char)) : List (List Char) :=
  segs.foldl
    (fun acc seg =>
      if seg = ['.'] then acc
      else if seg = ['.', '.'] then acc.dropLast
      else acc ++ [seg])
    []

/-- Render segments as an absolute path string (`[]` renders as `"/"`). -/
def renderAbs (segs : List (List Char)) : String :=
  String.mk ('/' :: List.intercalate ['/'] segs)

/-- `path.resolve` of an absolute path string: full normalisation. -/
def normAbs (s : String) : String :=
  renderAbs (normSegs (rawSegs s))

/-- `path.join(a, b)` for an absolute `a`: concatenate then normalise. -/
def joinAbs (a b : String) : String :=
  normAbs (a ++ "/" ++ b)

/-- `path.resolve(base, rel)` for an absolute `base`. -/
def resolveJs (base rel : String) : String :=
  if rel.data.head? = some '/' then normAbs rel else normAbs (base ++ "/" ++ rel)

/-- `path.resolve(current, "..")`: one step up. -/
def parentOf (s : String) : String :=
  normAbs (s ++ "/..")

/-- JavaScript `String.prototype.replace` with a plain-string pattern and an
empty replacement: remove the first occurrence of `pat`, if any. -/
def replaceOnceL (s pat : List Char) : List Char :=
  if pat.isPrefixOf s then s.drop pat.length
  else
    match s with
    | [] => []
    | c :: rest => c :: replaceOnceL rest pat

/-- String wrapper for `replaceOnceL`. -/
def replaceOnceS (s pat : String) : String :=
  String.mk (replaceOnceL s.data pat.data)

/-- `pat.startsWith` check used by the embedding. -/
def strStarts (pre s : String) : Bool :=
  pre.data.isPrefixOf s.data

/-- `s.endsWith(suf)` check used by the embedding. -/
def strEnds (suf s : String) : Bool :=
  suf.data.isSuffixOf s.data

/-! ## Data model (from `src/types.ts` via the config schema in the spec) -/

/-- `type` of a prompt: `"text" | "select" | "confirm"`. -/
inductive PromptType where
  | text
  | sel
  | confirm
deriving DecidableEq, Repr

/-- A select option: either a bare string or `{label, value, hint?}`. -/
inductive PromptOption where
  | bare (s : String)
  | detailed (label value : String) (hint : Option String)
deriving DecidableEq, Repr

/-- One prompt declaration of a `creator.json`. -/
structure PromptConfig where
  name : String
  type : PromptType
  message : String
  initial : Option String := none
  options : Option (List PromptOption) := none
deriving DecidableEq, Repr

/-- The `files` rule block of a `creator.json`. -/
structure FileRules where
  «include» : Option (List String) := none
  exclude : Option (List String) := none
  copyFrom : Option (List String) := none
deriving DecidableEq, Repr

/-- One parsed `creator.json`. -/
structure CreatorConfig where
  name : Option String := none
  description : Option String := none
  prompts : Option (List PromptConfig) := none
  files : Option FileRules := none
deriving DecidableEq, Repr

/-- State of `creator.json` inside a directory: missing, failing schema
validation (`safeParse` unsuccessful, a thrown error), or valid. -/
inductive ConfigFile where
  | absent
  | invalid
  | valid (c : CreatorConfig)
deriving DecidableEq, Repr

/-- A prompt answer: `string | boolean`. -/
inductive JsVal where
  | str (v : String)
  | bool (v : Bool)
deriving DecidableEq, Repr

/-- JavaScript `String(value)` on a prompt answer. -/
def jsShow : JsVal → String
  | .str v => v
  | .bool true => "true"
  | .bool false => "false"

/-- The filesystem and glob oracles consumed by the engine.  `scanGlob`
models `new Bun.Glob(pattern).scan({cwd, dot: true})` returning relative
paths in scan order; the rest model `existsSync` / `stat` / `lstat` /
`readdir` / `readFile` / `Buffer.toString("utf8")`. -/
structure FS where
  scanGlob : String → String → List String
  existsPath : String → Bool
  isDirStat : String → Bool
  configAt : String → ConfigFile
  subdirs : String → List String
  isDirL : String → Bool
  isFileL : String → Bool
  readFileBytes : String → List Nat
  decodeBytes : List Nat → String

/-- `existsSync(join(dir, "creator.json"))`. -/
def FS.hasConfig (fs : FS) (dir : String) : Bool :=
  match fs.configAt dir with
  | .absent => false
  | _ => true

/-! ## Renderer/Copier: binary detection, skip test, substitution -/

/-- `isBinaryBuffer`: scan at most the first 8000 bytes for a zero byte. -/
def isBinaryBuffer (buffer : List Nat) : Bool :=
  (buffer.take 8000).any (fun b => b == 0)

/-- `isSubPath`: `relPath === segment || relPath.startsWith(segment + "/")
|| relPath.startsWith(segment + "\\")`. -/
def isSubPath (relPath segment : String) : Bool :=
  relPath == segment || strStarts (segment ++ "/") relPath ||
    strStarts (segment ++ "\x5c") relPath

/-- Characters of the substitution identifier class `[a-zA-Z0-9_.-]`. -/
def identChar (c : Char) : Bool :=
  ('a' ≤ c && c ≤ 'z') || ('A' ≤ c && c ≤ 'Z') || ('0' ≤ c && c ≤ '9') ||
    c == '_' || c == '.' || c == '-'

/-- JavaScript regex `\s` (ASCII whitespace, no-break space, BOM). -/
def isJsWs (c : Char) : Bool :=
  c == ' ' || c == '\t' || c == '\n' || c == '\r' || c == '\x0b' ||
    c == '\x0c' || c == '\u00a0' || c == '\ufeff'

/-- Parse the part of `<%=\s*([a-zA-Z0-9_.-]+)\s*%>` after the opening
`<%=`: greedy whitespace, a non-empty identifier, greedy whitespace, then
the closing `%>`.  Returns the identifier and the remaining characters. -/
def parsePH (cs : List Char) : Option (String × List Char) :=
  if (cs.dropWhile isJsWs).takeWhile identChar = [] then none
  else
    match ((cs.dropWhile isJsWs).dropWhile identChar).dropWhile isJsWs with
    | '%' :: '>' :: rest =>
      some (String.mk ((cs.dropWhile isJsWs).takeWhile identChar), rest)
    | _ => none

/-- The replacement for one matched placeholder:
`value === undefined ? "" : String(value)`. -/
def promptValueStr (data : String → Option JsVal) (key : String) : String :=
  match data key with
  | none => ""
  | some v => jsShow v

/-- One step of the global-regex replacement of `renderTemplate`: at each
position try to match the placeholder pattern; on success emit the bound
value (`""` when the key is absent) and continue after the match, otherwise
emit the character and continue at the next position.  `fuel` bounds the
recursion (the scan consumes at least one character per step). -/
def renderAux (data : String → Option JsVal) : Nat → List Char → List Char
  | 0, cs => cs
  | _ + 1, [] => []
  | fuel + 1, c :: rest =>
    if ['<', '%', '='].isPrefixOf (c :: rest) then
      match parsePH ((c :: rest).drop 3) with
      | some (key, rest') =>
        (promptValueStr data key).data ++ renderAux data fuel rest'
      | none => c :: renderAux data fuel rest
    else c :: renderAux data fuel rest

/-- `renderTemplate`: `content.replace(/<%=\s*([a-zA-Z0-9_.-]+)\s*%>/g, ...)`
replacing each placeholder by the string form of the prompt value, or the
empty string when the key is absent. -/
def renderTemplate (content : String) (data : String → Option JsVal) : String :=
  String.mk (renderAux data content.data.length content.data)

/-! ## Directory Tree Builder and Template Selector -/

/-- `DirectoryNode`: name, absolute path, owns a `creator.json`, children
as an insertion-ordered map (readdir order). -/
inductive DirNode where
  | mk (name : String) (path : String) (hasConfig : Bool)
       (children : List (String × DirNode))

/-- The `name` field of a `DirectoryNode`. -/
def DirNode.name : DirNode → String
  | .mk n _ _ _ => n

/-- The `path` field of a `DirectoryNode`. -/
def DirNode.path : DirNode → String
  | .mk _ p _ _ => p

/-- The `hasConfig` field of a `DirectoryNode`. -/
def DirNode.hasConfig : DirNode → Bool
  | .mk _ _ h _ => h

/-- The `children` map of a `DirectoryNode`. -/
def DirNode.children : DirNode → List (String × DirNode)
  | .mk _ _ _ c => c

/-- `buildDirTree`: walk subdirectories (readdir order), pruning every entry
whose name starts with `.`; `hasConfig` tests for a `creator.json` directly
inside.  The source walks breadth-first with a queue; the recursive
construction here yields the identical tree.  `fuel` bounds the depth (the
walk of the source terminates because the directory tree is finite). -/
def buildDirTreeAux (fs : FS) : Nat → String → String → DirNode
  | 0, name, path => .mk name path (fs.hasConfig path) []
  | fuel + 1, name, path =>
    .mk name path (fs.hasConfig path)
      (((fs.subdirs path).filter (fun n => ¬ strStarts "." n)).map
        (fun n => (n, buildDirTreeAux fs fuel n (joinAbs path n))))

/-- `buildDirTree` rooted at the template root (root node named `"."`). -/
def buildDirTree (fs : FS) (fuel : Nat) (rootPath : String) : DirNode :=
  buildDirTreeAux fs fuel "." rootPath

/-- `selectTemplateDir`: a node without `creator.json`, or without children,
is final; otherwise the user picks a child by name and the walk recurses.
`choices` is the sequence of the user's answers; `none` models either a
cancel (graceful exit) or an invalid pick (error exit): in both cases no
directory is returned. -/
def selectTemplateDir (node : DirNode) (choices : List String) : Option DirNode :=
  if node.hasConfig = false then some node
  else if node.children.isEmpty then some node
  else
    match choices with
    | [] => none
    | pick :: rest =>
      match node.children.find? (fun p => p.1 == pick) with
      | some (_, child) => selectTemplateDir child rest
      | none => none

/-! ## Config Cascade Collector -/

/-- Result of `collectAllConfigs`. -/
structure CollectResult where
  configs : List CreatorConfig
  paths : List String
  selectedDirConfig : Option CreatorConfig
deriving DecidableEq, Repr

/-- The ancestor-chain loop of `collectAllConfigs`:
`while (current && current !== rootPath && !visited.has(current))`
unshifts `current` onto the chain, marks it visited and ascends with
`resolve(current, "..")`.  The chain and the visited set receive exactly
the same elements, so one list serves as both.  `fuel` bounds the loop
(each `resolve(.., "..")` drops a path segment). -/
def chainUp (root : String) : Nat → String → List String → List String
  | 0, _, chain => chain
  | fuel + 1, current, chain =>
    if current = "" ∨ current = root ∨ current ∈ chain then chain
    else chainUp root fuel (parentOf current) (current :: chain)

/-- Load the `creator.json` of every directory of the path chain in order;
a directory without one is skipped, an invalid one aborts with a named
error; the selected directory's own config is remembered. -/
def loadChainConfigs (fs : FS) (selectedPath : String) :
    List String → CollectResult → Except String CollectResult
  | [], acc => .ok acc
  | dirPath :: rest, acc =>
    match fs.configAt dirPath with
    | .absent => loadChainConfigs fs selectedPath rest acc
    | .invalid => .error dirPath
    | .valid c =>
      loadChainConfigs fs selectedPath rest
        { configs := acc.configs ++ [c]
          paths := acc.paths ++ [dirPath]
          selectedDirConfig :=
            if dirPath = selectedPath then some c else acc.selectedDirConfig }

/-- The copy-from loop of `collectAllConfigs`: resolve each `copyFrom`
entry against the selected directory; targets not yet visited nor processed
that exist on disk are marked (visited and processed) and their
`creator.json`, when present, is loaded and appended.  The queue of the
source holds at most the selected config (copy-from chains are not
expanded), so the while-loop visits exactly the selected config's
`copyFrom` list. -/
def collectCopyFroms (fs : FS) (selectedPath : String) :
    List String → List String → List String → CollectResult →
    Except String CollectResult
  | [], _, _, acc => .ok acc
  | copyPath :: rest, visited, processed, acc =>
    let resolvedPath := resolveJs selectedPath copyPath
    if resolvedPath ∉ visited ∧ resolvedPath ∉ processed ∧
        fs.existsPath resolvedPath = true then
      match fs.configAt resolvedPath with
      | .absent =>
        collectCopyFroms fs selectedPath rest (resolvedPath :: visited)
          (resolvedPath :: processed) acc
      | .invalid => .error resolvedPath
      | .valid c =>
        collectCopyFroms fs selectedPath rest (resolvedPath :: visited)
          (resolvedPath :: processed)
          { acc with
            configs := acc.configs ++ [c]
            paths := acc.paths ++ [resolvedPath] }
    else collectCopyFroms fs selectedPath rest visited processed acc

/-- `collectAllConfigs`: ancestor chain from the template root to the
selected directory (root unshifted after the loop, hence never in the
visited set), each chain config loaded in root-to-leaf order, then the
selected config's `copyFrom` targets. -/
def collectAllConfigs (fs : FS) (selectedPath rootPath : String) :
    Except String CollectResult :=
  match loadChainConfigs fs selectedPath
      (rootPath :: chainUp rootPath (selectedPath.length + 2) selectedPath [])
      { configs := [], paths := [], selectedDirConfig := none } with
  | .error e => .error e
  | .ok acc =>
    collectCopyFroms fs selectedPath
      (match acc.selectedDirConfig with
        | some c =>
          match c.files with
          | some f => f.copyFrom.getD []
          | none => []
        | none => [])
      (chainUp rootPath (selectedPath.length + 2) selectedPath []) [] acc

/-! ## Config Merger -/

/-- `mergeConfigs`: prompts of every cascade config merged by name into an
insertion-ordered map (`promptMap.set(prompt.name, prompt)` — last writer
wins, first-insertion position kept); file rules come exclusively from the
selected directory's own config. -/
def mergeConfigs (configs : List CreatorConfig)
    (selectedDirConfig : Option CreatorConfig) :
    List PromptConfig × Option FileRules :=
  let promptMap :=
    configs.foldl
      (fun m config =>
        (config.prompts.getD []).foldl (fun m p => setOM m p.name p) m)
      []
  (promptMap.map (fun p => p.2), selectedDirConfig.bind (fun c => c.files))

/-! ## File Set Resolver -/

/-- Include phase of `collectFileList`: for each include pattern
(default `["**/*"]`), every matched relative path is written to the map
keyed by itself with source `join(configDir, relPath)`. -/
def includeWrites (fs : FS) (configDir : String) (pats : List String) :
    List (String × String) :=
  pats.flatMap (fun pat =>
    (fs.scanGlob configDir pat).map (fun rel => (rel, joinAbs configDir rel)))

/-- Exclude phase of `collectFileList`: every relative path matched by an
exclude pattern is deleted from the map. -/
def excludeDeletes (fs : FS) (configDir : String) (pats : List String) :
    List String :=
  pats.flatMap (fun pat => fs.scanGlob configDir pat)

/-- The output key of a copy-from file:
`resolve(sourcePath).replace(resolve(templateRoot) + "\\", "")
.replace(resolve(templateRoot) + "/", "")` — the first occurrence of the
template root prefix is removed from the absolute source path. -/
def copyKey (templateRoot sourcePath : String) : String :=
  replaceOnceS (replaceOnceS (normAbs sourcePath) (normAbs templateRoot ++ "\x5c"))
    (normAbs templateRoot ++ "/")

/-- Copy-from phase of `collectFileList`: each `copyFrom` entry is resolved
as `resolve(join(configDir, copyPath))`; when it exists and is a directory,
every file under it (`**/*` scan) is written with key `copyKey` and source
`join(resolvedCopyPath, relPath)`. -/
def cfWrites (fs : FS) (templateRoot configDir : String) (cfs : List String) :
    List (String × String) :=
  cfs.flatMap (fun copyPath =>
    let resolvedCopyPath := normAbs (configDir ++ "/" ++ copyPath)
    if fs.existsPath resolvedCopyPath = true ∧
        fs.isDirStat resolvedCopyPath = true then
      (fs.scanGlob resolvedCopyPath "**/*").map (fun rel =>
        let sourcePath := joinAbs resolvedCopyPath rel
        (copyKey templateRoot sourcePath, sourcePath))
    else [])

/-- The include pattern list: `files?.include ?? ["**/*"]`. -/
def includePats (files : Option FileRules) : List String :=
  match files with
  | none => ["**/*"]
  | some f => f.«include».getD ["**/*"]

/-- The exclude pattern list (`files?.exclude`, absent or empty ⇒ no-op). -/
def excludePats (files : Option FileRules) : List String :=
  (files.bind (fun f => f.exclude)).getD []

/-- The copy-from list (`files?.copyFrom`, absent ⇒ no-op). -/
def copyFromList (files : Option FileRules) : List String :=
  (files.bind (fun f => f.copyFrom)).getD []

/-- `collectFileList`'s map `fileMap : targetPath -> sourcePath`: includes
written first, then excludes deleted, then copy-from files written last. -/
def collectFileMap (fs : FS) (templateRoot configDir : String)
    (files : Option FileRules) : List (String × String) :=
  let m1 := applyWrites [] (includeWrites fs configDir (includePats files))
  let m2 := applyDeletes m1 (excludeDeletes fs configDir (excludePats files))
  applyWrites m2 (cfWrites fs templateRoot configDir (copyFromList files))

/-- A resolved mapping entry as returned by `collectFileList`. -/
structure SourceTarget where
  sourcePath : String
  targetPath : String
deriving DecidableEq, Repr

/-- `collectFileList`: the entries of the file map in insertion order. -/
def collectFileList (fs : FS) (templateRoot configDir : String)
    (files : Option FileRules) : List SourceTarget :=
  (collectFileMap fs templateRoot configDir files).map
    (fun p => { sourcePath := p.2, targetPath := p.1 })

/-! ## Renderer/Copier -/

/-- One write performed by `copyTemplate`. -/
inductive FileAction where
  | mkdirA (path : String)
  | writeBin (path : String) (bytes : List Nat)
  | writeText (path : String) (content : String)
deriving DecidableEq, Repr

/-- The body of `copyTemplate`'s loop for one resolved entry: skip
`.git`-rooted paths and `creator.json`s, create directories, copy binary
files byte-for-byte, render text files; anything else (symlinks) is
silently skipped. -/
def copyEntry (fs : FS) (outputRoot : String) (data : String → Option JsVal)
    (targetPath sourcePath : String) : Option FileAction :=
  if isSubPath targetPath ".git" = true then none
  else if strEnds "creator.json" targetPath = true then none
  else if fs.isDirL sourcePath = true then
    some (.mkdirA (joinAbs outputRoot targetPath))
  else if fs.isFileL sourcePath = true then
    if isBinaryBuffer (fs.readFileBytes sourcePath) = true then
      some (.writeBin (joinAbs outputRoot targetPath)
        (fs.readFileBytes sourcePath))
    else
      some (.writeText (joinAbs outputRoot targetPath)
        (renderTemplate (fs.decodeBytes (fs.readFileBytes sourcePath)) data))
  else none

/-- `copyTemplate`: resolve the file list and process every entry. -/
def copyTemplate (fs : FS) (templateRoot outputRoot : String)
    (data : String → Option JsVal) (configDir : String)
    (files : Option FileRules) : List FileAction :=
  (collectFileList fs templateRoot configDir files).filterMap
    (fun e => copyEntry fs outputRoot data e.targetPath e.sourcePath)

/-! ## Entry point fragment: effective template root -/

/-- The redirection of `main`: if the resolved template root contains an
entry named `template` that is a directory, that subdirectory silently
becomes the effective template root. -/
def effectiveTemplateRoot (fs : FS) (templateRoot : String) : String :=
  let templateSubDir := joinAbs templateRoot "template"
  if fs.existsPath templateSubDir = true ∧ fs.isDirStat templateSubDir = true
  then templateSubDir
  else templateRoot

/-- The pipeline fragment of `main` after the template root is resolved:
tree building, selection and cascade collection all receive the effective
template root, not the directory the user named. -/
def mainPrepare (fs : FS) (fuel : Nat) (templateRoot : String)
    (choices : List String) : Option (String × Except String CollectResult) :=
  let eff := effectiveTemplateRoot fs templateRoot
  (selectTemplateDir (buildDirTree fs fuel eff) choices).map
    (fun sel => (eff, collectAllConfigs fs sel.path eff))

/-! ## Lemmas about insertion-ordered maps -/

theorem lookupOM_setOM_self {α : Type} (m : List (String × α)) (k : String)
    (v : α) : lookupOM (setOM m k v) k = some v := by
  induction m with
  | nil => simp [setOM, lookupOM]
  | cons p rest ih =>
    by_cases hk : p.1 = k
    · simp [setOM, hk, lookupOM]
    · simp [setOM, hk, lookupOM, ih]

theorem lookupOM_setOM_ne {α : Type} (m : List (String × α)) (k k' : String)
    (v : α) (hne : k' ≠ k) : lookupOM (setOM m k v) k' = lookupOM m k' := by
  have hne' : k ≠ k' := Ne.symm hne
  induction m with
  | nil => simp [setOM, lookupOM, hne']
  | cons p rest ih =>
    by_cases hk : p.1 = k
    · simp [setOM, hk, lookupOM, hne']
    · simp only [setOM, hk, if_false]
      by_cases hp : p.1 = k'
      · simp [lookupOM, hp]
      · simp [lookupOM, hp, ih]

theorem lookupOM_delOM_self {α : Type} (m : List (String × α)) (k : String) :
    lookupOM (delOM m k) k = none := by
  induction m with
  | nil => simp [delOM, lookupOM]
  | cons p rest ih =>
    by_cases hk : p.1 = k
    · simp [delOM, hk, ih]
    · simp [delOM, hk, lookupOM, ih]

theorem lookupOM_delOM_ne {α : Type} (m : List (String × α)) (k k' : String)
    (hne : k' ≠ k) : lookupOM (delOM m k) k' = lookupOM m k' := by
  have hne' : k ≠ k' := Ne.symm hne
  induction m with
  | nil => simp [delOM]
  | cons p rest ih =>
    by_cases hk : p.1 = k
    · simp [delOM, hk, lookupOM, hne', ih]
    · by_cases hp : p.1 = k'
      · simp [delOM, hk, lookupOM, hp, hne]
      · simp [delOM, hk, lookupOM, hp, ih]

theorem lookupOM_append {α : Type} (m1 m2 : List (String × α)) (k : String) :
    lookupOM (m1 ++ m2) k =
      match lookupOM m1 k with
      | some v => some v
      | none => lookupOM m2 k := by
  induction m1 with
  | nil => simp [lookupOM]
  | cons p rest ih =>
    by_cases hk : p.1 = k
    · simp [lookupOM, hk]
    · simp [lookupOM, hk, ih]

theorem lookupOM_applyWrites {α : Type} (ws : List (String × α))
    (m : List (String × α)) (k : String) :
    lookupOM (applyWrites m ws) k =
      match lastAssocW ws k with
      | some v => some v
      | none => lookupOM m k := by
  induction ws generalizing m with
  | nil => simp [applyWrites, lastAssocW, lookupOM]
  | cons kv rest ih =>
    show lookupOM (applyWrites (setOM m kv.1 kv.2) rest) k = _
    rw [ih]
    unfold lastAssocW
    rw [List.reverse_cons, lookupOM_append]
    cases hfind : lookupOM rest.reverse k with
    | some v => simp [hfind]
    | none =>
      by_cases hk : k = kv.1
      · simp [hfind, lookupOM, hk, lookupOM_setOM_self]
      · have h1 : kv.1 ≠ k := fun h => hk h.symm
        simp [hfind, lookupOM, h1, lookupOM_setOM_ne _ _ _ _ hk]

theorem lookupOM_applyDeletes {α : Type} (ks : List String)
    (m : List (String × α)) (k : String) :
    lookupOM (applyDeletes m ks) k =
      if k ∈ ks then none else lookupOM m k := by
  induction ks generalizing m with
  | nil => simp [applyDeletes]
  | cons k0 rest ih =>
    show lookupOM (applyDeletes (delOM m k0) rest) k = _
    rw [ih]
    by_cases hmem : k ∈ rest
    · simp [hmem]
    · by_cases hk : k = k0
      · simp [hmem, hk, lookupOM_delOM_self]
      · simp [hmem, hk, lookupOM_delOM_ne _ _ _ hk]

theorem lookupOM_eq_none {α : Type} (m : List (String × α)) (k : String)
    (h : k ∉ keysOM m) : lookupOM m k = none := by
  induction m with
  | nil => rfl
  | cons p rest ih =>
    simp only [keysOM, List.map_cons, List.mem_cons, not_or] at h
    obtain ⟨h1, h2⟩ := h
    simp only [lookupOM]
    rw [if_neg (fun hp : p.1 = k => h1 hp.symm)]
    exact ih h2

theorem lookupOM_isSome {α : Type} (m : List (String × α)) (k : String)
    (h : k ∈ keysOM m) : ∃ v, lookupOM m k = some v := by
  induction m with
  | nil => simp [keysOM] at h
  | cons p rest ih =>
    by_cases hk : p.1 = k
    · exact ⟨p.2, by simp [lookupOM, hk]⟩
    · simp only [keysOM, List.map_cons, List.mem_cons] at h
      rcases h with h | h
    -- k = p.1 contradicts hk
      · exact absurd h.symm hk
      · simpa [lookupOM, hk] using ih h

theorem lookupOM_mem {α : Type} (m : List (String × α)) (k : String) (v : α)
    (h : lookupOM m k = some v) : (k, v) ∈ m := by
  induction m with
  | nil => simp [lookupOM] at h
  | cons p rest ih =>
    rcases p with ⟨pk, pv⟩
    by_cases hk : pk = k
    · subst hk
      simp [lookupOM] at h
      subst h
      exact List.mem_cons_self _ _
    · simp only [lookupOM, if_neg hk] at h
      exact List.mem_cons_of_mem _ (ih h)

theorem lastAssocW_eq_none {α : Type} (ws : List (String × α)) (k : String)
    (h : k ∉ keysOM ws) : lastAssocW ws k = none := by
  unfold lastAssocW
  apply lookupOM_eq_none
  simpa [keysOM] using h

theorem lastAssocW_isSome {α : Type} (ws : List (String × α)) (k : String)
    (h : k ∈ keysOM ws) : ∃ v, lastAssocW ws k = some v := by
  unfold lastAssocW
  apply lookupOM_isSome
  simpa [keysOM] using h

theorem lastAssocW_mem {α : Type} (ws : List (String × α)) (k : String)
    (v : α) (h : lastAssocW ws k = some v) : (k, v) ∈ ws := by
  unfold lastAssocW at h
  exact List.mem_reverse.mp (lookupOM_mem _ _ _ h)


/-! ## Key order: first-insertion dedup -/

/-- First-occurrence deduplication: the order in which distinct keys are
first seen. -/
def firstDedup : List String → List String
  | [] => []
  | a :: l => a :: (firstDedup l).filter (fun b => b != a)

theorem mem_firstDedup (l : List String) (x : String) :
    x ∈ firstDedup l ↔ x ∈ l := by
  induction l with
  | nil => simp [firstDedup]
  | cons a l ih =>
    simp only [firstDedup, List.mem_cons, List.mem_filter, bne_iff_ne, ih]
    constructor
    · rintro (rfl | ⟨hx, _⟩)
      · exact .inl rfl
      · exact .inr hx
    · rintro (rfl | hx)
      · exact .inl rfl
      · by_cases hxa : x = a
        · exact .inl hxa
        · exact .inr ⟨hx, by simpa using hxa⟩

theorem nodup_firstDedup (l : List String) : (firstDedup l).Nodup := by
  induction l with
  | nil => simp [firstDedup]
  | cons a l ih =>
    simp only [firstDedup, List.nodup_cons]
    refine ⟨?_, ih.filter _⟩
    intro hmem
    have := (List.mem_filter.mp hmem).2
    simp at this

theorem filter_filter_of_imp {α : Type} (l : List α) (p q : α → Bool)
    (h : ∀ x, p x = true → q x = true) :
    (l.filter q).filter p = l.filter p := by
  induction l with
  | nil => rfl
  | cons a l ih =>
    by_cases hq : q a = true
    · by_cases hp : p a = true
      · simp [List.filter_cons, hq, hp, ih]
      · simp only [Bool.not_eq_true] at hp
        simp [List.filter_cons, hq, hp, ih]
    · have hp : p a = false := by
        rcases hpa : p a with _ | _
        · rfl
        · exact absurd (h a hpa) hq
      simp only [Bool.not_eq_true] at hq
      simp [List.filter_cons, hq, hp, ih]

theorem keysOM_cons {α : Type} (p : String × α) (l : List (String × α)) :
    keysOM (p :: l) = p.1 :: keysOM l := rfl

theorem keysOM_setOM {α : Type} (m : List (String × α)) (k : String) (v : α) :
    keysOM (setOM m k v) =
      if k ∈ keysOM m then keysOM m else keysOM m ++ [k] := by
  induction m with
  | nil => simp [setOM, keysOM]
  | cons p rest ih =>
    by_cases hk : p.1 = k
    · subst hk
      simp [setOM, keysOM]
    · rw [show setOM (p :: rest) k v = p :: setOM rest k v by simp [setOM, hk]]
      rw [keysOM_cons, ih, keysOM_cons]
      by_cases hmem : k ∈ keysOM rest
      · rw [if_pos hmem, if_pos (List.mem_cons_of_mem _ hmem)]
      · rw [if_neg hmem, if_neg (by
          intro hc
          rcases List.mem_cons.mp hc with hc | hc
          · exact hk hc.symm
          · exact hmem hc)]
        simp

theorem keysOM_applyWrites {α : Type} (ws : List (String × α))
    (m : List (String × α)) :
    keysOM (applyWrites m ws) =
      keysOM m ++
        (firstDedup (keysOM ws)).filter (fun x => decide (x ∉ keysOM m)) := by
  induction ws generalizing m with
  | nil => simp [applyWrites, firstDedup, keysOM]
  | cons kv rest ih =>
    show keysOM (applyWrites (setOM m kv.1 kv.2) rest) = _
    rw [ih, keysOM_setOM]
    rw [show firstDedup (keysOM (kv :: rest)) =
        kv.1 :: (firstDedup (keysOM rest)).filter (fun b => b != kv.1) from rfl]
    rw [List.filter_cons]
    by_cases hmem : kv.1 ∈ keysOM m
    · rw [if_pos hmem]
      rw [show (decide (kv.1 ∉ keysOM m)) = false by simp [hmem]]
      simp only [Bool.false_eq_true, if_false]
      congr 1
      rw [List.filter_filter]
      apply List.filter_congr
      intro x _
      by_cases hx : x ∈ keysOM m
      · simp [hx]
      · have hxk : x ≠ kv.1 := fun h => hx (h ▸ hmem)
        simp [hx, hxk]
    · rw [if_neg hmem]
      rw [show (decide (kv.1 ∉ keysOM m)) = true by simp [hmem]]
      simp only [if_true]
      rw [List.append_assoc, List.singleton_append]
      congr 1
      rw [List.filter_filter]
      congr 1
      apply List.filter_congr
      intro x _
      by_cases hx : x ∈ keysOM m
      · simp [hx, List.mem_append]
      · by_cases hxk : x = kv.1
        · simp [hx, hxk]
        · simp [hx, hxk, List.mem_append]

/-! ## Lemmas about the prompt merge -/

/-- The prompt writes of a cascade, in cascade order. -/
def promptWrites (configs : List CreatorConfig) : List (String × PromptConfig) :=
  (configs.flatMap (fun c => c.prompts.getD [])).map (fun p => (p.name, p))

/-- First prompt with the given name. -/
def firstNamed : List PromptConfig → String → Option PromptConfig
  | [], _ => none
  | p :: rest, n => if p.name = n then some p else firstNamed rest n

/-- Last prompt with the given name (cascade order). -/
def lastPromptNamed (ps : List PromptConfig) (n : String) : Option PromptConfig :=
  firstNamed ps.reverse n

theorem applyWrites_append {α : Type} (m : List (String × α))
    (w1 w2 : List (String × α)) :
    applyWrites m (w1 ++ w2) = applyWrites (applyWrites m w1) w2 := by
  unfold applyWrites
  rw [List.foldl_append]

theorem foldl_setOM_eq_applyWrites (ps : List PromptConfig)
    (m : List (String × PromptConfig)) :
    ps.foldl (fun m p => setOM m p.name p) m =
      applyWrites m (ps.map (fun p => (p.name, p))) := by
  induction ps generalizing m with
  | nil => rfl
  | cons p rest ih => simp [applyWrites, List.foldl_cons, ih]

theorem configsFold_eq (configs : List CreatorConfig)
    (m : List (String × PromptConfig)) :
    configs.foldl
        (fun m config =>
          (config.prompts.getD []).foldl (fun m p => setOM m p.name p) m) m =
      applyWrites m (promptWrites configs) := by
  induction configs generalizing m with
  | nil => rfl
  | cons c rest ih =>
    rw [List.foldl_cons, ih, foldl_setOM_eq_applyWrites]
    rw [show promptWrites (c :: rest) =
        ((c.prompts.getD []).map (fun p => (p.name, p))) ++ promptWrites rest
      from by simp [promptWrites]]
    rw [applyWrites_append]

theorem mergeConfigs_fst (configs : List CreatorConfig)
    (sel : Option CreatorConfig) :
    (mergeConfigs configs sel).1 =
      (applyWrites [] (promptWrites configs)).map (fun p => p.2) := by
  show (configs.foldl
      (fun m config =>
        (config.prompts.getD []).foldl (fun m p => setOM m p.name p) m)
      []).map (fun p => p.2) = _
  rw [configsFold_eq]

theorem mem_setOM {α : Type} (m : List (String × α)) (k : String) (v : α)
    (q : String × α) (h : q ∈ setOM m k v) : q = (k, v) ∨ q ∈ m := by
  induction m with
  | nil => simpa [setOM] using h
  | cons p rest ih =>
    by_cases hk : p.1 = k
    · simp only [setOM, hk, if_true] at h
      rcases List.mem_cons.mp h with h | h
      · exact .inl h
      · exact .inr (List.mem_cons_of_mem _ h)
    · simp only [setOM, hk, if_false] at h
      rcases List.mem_cons.mp h with h | h
      · exact .inr (h ▸ List.mem_cons_self _ _)
      · rcases ih h with h | h
        · exact .inl h
        · exact .inr (List.mem_cons_of_mem _ h)

theorem consistent_applyWrites (ws : List (String × PromptConfig))
    (m : List (String × PromptConfig))
    (hws : ∀ q ∈ ws, (q : String × PromptConfig).2.name = q.1)
    (hm : ∀ q ∈ m, (q : String × PromptConfig).2.name = q.1) :
    ∀ q ∈ applyWrites m ws, (q : String × PromptConfig).2.name = q.1 := by
  induction ws generalizing m with
  | nil => exact hm
  | cons kv rest ih =>
    intro q hq
    refine ih _ (fun r hr => hws r (List.mem_cons_of_mem _ hr)) ?_ q hq
    intro r hr
    rcases mem_setOM _ _ _ _ hr with h | h
    · subst h
      exact hws kv (List.mem_cons_self _ _)
    · exact hm r h

theorem consistent_promptWrites (configs : List CreatorConfig) :
    ∀ q ∈ promptWrites configs, (q : String × PromptConfig).2.name = q.1 := by
  intro q hq
  unfold promptWrites at hq
  obtain ⟨p, _, rfl⟩ := List.mem_map.mp hq
  rfl

theorem lookupOM_of_mem_nodup {α : Type} (m : List (String × α)) (k : String)
    (v : α) (hmem : (k, v) ∈ m) (hnd : (keysOM m).Nodup) :
    lookupOM m k = some v := by
  induction m with
  | nil => simp at hmem
  | cons p rest ih =>
    rw [keysOM_cons, List.nodup_cons] at hnd
    rcases List.mem_cons.mp hmem with h | h
    · rw [← h]
      simp [lookupOM]
    · have hk : p.1 ≠ k := by
        intro hc
        exact hnd.1 (hc ▸ (List.mem_map.mpr ⟨(k, v), h, hc ▸ rfl⟩))
      simp only [lookupOM, if_neg hk]
      exact ih h hnd.2

theorem nodup_keys_applyWrites_nil {α : Type} (ws : List (String × α)) :
    (keysOM (applyWrites ([] : List (String × α)) ws)).Nodup := by
  rw [keysOM_applyWrites]
  simp only [keysOM, List.map_nil, List.nil_append]
  exact (nodup_firstDedup _).filter _

theorem lookupOM_map_name (ps : List PromptConfig) (n : String) :
    lookupOM (ps.map (fun p => (p.name, p))) n = firstNamed ps n := by
  induction ps with
  | nil => rfl
  | cons p rest ih =>
    by_cases hn : p.name = n
    · simp [lookupOM, firstNamed, hn]
    · simp [lookupOM, firstNamed, hn, ih]

theorem lastAssocW_promptWrites (ps : List PromptConfig) (n : String) :
    lastAssocW (ps.map (fun p => (p.name, p))) n = lastPromptNamed ps n := by
  unfold lastAssocW lastPromptNamed
  rw [← List.map_reverse]
  exact lookupOM_map_name _ _

theorem keysOM_promptWrites (configs : List CreatorConfig) :
    keysOM (promptWrites configs) =
      (configs.flatMap (fun c => c.prompts.getD [])).map (fun p => p.name) := by
  unfold promptWrites keysOM
  rw [List.map_map]
  rfl

/-! ## Claim C3 -/

theorem keysOM_applyWrites_nil {α : Type} (ws : List (String × α)) :
    keysOM (applyWrites ([] : List (String × α)) ws) =
      firstDedup (keysOM ws) := by
  rw [keysOM_applyWrites]
  simp only [keysOM, List.map_nil, List.nil_append]
  exact List.filter_eq_self.mpr (by simp)

/-- C3: for every configuration cascade, the merged prompt list has exactly
one entry per distinct prompt name of the cascade, each entry is the last
occurrence of that name in cascade order, and entries appear in the order
their names were first inserted (overwrites keep the original position). -/
theorem mergeConfigs_prompt_merge (configs : List CreatorConfig)
    (sel : Option CreatorConfig) :
    ((mergeConfigs configs sel).1.map (fun p => p.name)).Nodup ∧
    (∀ n, n ∈ (mergeConfigs configs sel).1.map (fun p => p.name) ↔
      n ∈ (configs.flatMap (fun c => c.prompts.getD [])).map (fun p => p.name)) ∧
    (∀ p ∈ (mergeConfigs configs sel).1,
      lastPromptNamed (configs.flatMap (fun c => c.prompts.getD [])) p.name =
        some p) ∧
    (mergeConfigs configs sel).1.map (fun p => p.name) =
      firstDedup
        ((configs.flatMap (fun c => c.prompts.getD [])).map (fun p => p.name)) := by
  have hcons : ∀ q ∈ applyWrites [] (promptWrites configs),
      (q : String × PromptConfig).2.name = q.1 :=
    consistent_applyWrites _ [] (consistent_promptWrites configs) (by simp)
  have horder : (mergeConfigs configs sel).1.map (fun p => p.name) =
      firstDedup
        ((configs.flatMap (fun c => c.prompts.getD [])).map (fun p => p.name)) := by
    rw [mergeConfigs_fst, List.map_map, ← keysOM_promptWrites,
      ← keysOM_applyWrites_nil]
    unfold keysOM
    exact List.map_congr_left (fun q hq => hcons q hq)
  refine ⟨?_, ?_, ?_, horder⟩
  · rw [horder]
    exact nodup_firstDedup _
  · intro n
    rw [horder, mem_firstDedup]
  · intro p hp
    rw [mergeConfigs_fst] at hp
    obtain ⟨q, hqM, rfl⟩ := List.mem_map.mp hp
    have hqname := hcons q hqM
    have hlook : lookupOM (applyWrites [] (promptWrites configs)) q.1 =
        some q.2 :=
      lookupOM_of_mem_nodup _ _ _ (by simpa using hqM)
        (nodup_keys_applyWrites_nil _)
    rw [lookupOM_applyWrites] at hlook
    rcases hlast : lastAssocW (promptWrites configs) q.1 with _ | v
    · rw [hlast] at hlook
      simp [lookupOM] at hlook
    · rw [hlast] at hlook
      simp only [Option.some.injEq] at hlook
      subst hlook
      rw [hqname]
      rw [← lastAssocW_promptWrites]
      exact hqname ▸ hlast

/-- Concrete prompts and configs used by the C3 witness. -/
def promptRootName : PromptConfig :=
  { name := "name", type := .text, message := "root q" }

/-- The child's overriding `name` prompt. -/
def promptChildName : PromptConfig :=
  { name := "name", type := .text, message := "child q" }

/-- The child's additional `port` prompt. -/
def promptChildPort : PromptConfig :=
  { name := "port", type := .text, message := "port q" }

/-- Root config of the C3 witness cascade. -/
def cfgRootC3 : CreatorConfig := { prompts := some [promptRootName] }

/-- Child config of the C3 witness cascade. -/
def cfgChildC3 : CreatorConfig :=
  { prompts := some [promptChildName, promptChildPort] }

/-- The C3 witness cascade. -/
def cascadeC3 : List CreatorConfig := [cfgRootC3, cfgChildC3]

/-- C3 witness: in the concrete two-config cascade the merged list is the
overridden `name` prompt (kept in first position) followed by `port`, and
each merged entry is the last occurrence of its name. -/
theorem mergeConfigs_prompt_merge_witness :
    promptChildName ∈ (mergeConfigs cascadeC3 none).1 ∧
    lastPromptNamed (cascadeC3.flatMap (fun c => c.prompts.getD []))
        promptChildName.name = some promptChildName ∧
    (mergeConfigs cascadeC3 none).1 = [promptChildName, promptChildPort] :=
  ⟨by decide,
   (mergeConfigs_prompt_merge cascadeC3 none).2.2.1 promptChildName (by decide),
   by decide⟩

/-! ## Claims C5, C4 and C1: the file set resolver -/

/-- Every pair written by the copy-from phase is keyed by `copyKey` of its
own source path. -/
theorem cfWrites_key (fs : FS) (root cfgDir : String) (cfs : List String) :
    ∀ q ∈ cfWrites fs root cfgDir cfs,
      (q : String × String).1 = copyKey root q.2 := by
  intro q hq
  unfold cfWrites at hq
  obtain ⟨copyPath, _, hq⟩ := List.mem_flatMap.mp hq
  by_cases hc : fs.existsPath (normAbs (cfgDir ++ "/" ++ copyPath)) = true ∧
      fs.isDirStat (normAbs (cfgDir ++ "/" ++ copyPath)) = true
  · rw [if_pos hc] at hq
    obtain ⟨rel, _, rfl⟩ := List.mem_map.mp hq
    rfl
  · rw [if_neg hc] at hq
    simp at hq

/-- C5: entries introduced by copy-from directories are never removed by the
exclude patterns — with or without the exclude list, every copy-from key is
present in the final map with the same (last-written) source. -/
theorem copyFrom_immune_to_exclude (fs : FS) (root cfgDir : String)
    (rules : FileRules) (k : String)
    (hk : k ∈ keysOM (cfWrites fs root cfgDir (copyFromList (some rules)))) :
    ∃ v, lookupOM (collectFileMap fs root cfgDir (some rules)) k = some v ∧
      lookupOM (collectFileMap fs root cfgDir
        (some { rules with exclude := none })) k = some v := by
  obtain ⟨v, hv⟩ := lastAssocW_isSome _ _ hk
  refine ⟨v, ?_, ?_⟩
  · unfold collectFileMap
    rw [lookupOM_applyWrites, hv]
  · unfold collectFileMap
    have hcf : copyFromList (some ({ rules with exclude := none } : FileRules)) =
        copyFromList (some rules) := rfl
    rw [hcf, lookupOM_applyWrites, hv]

/-- Filesystem fixture for the file-set-resolver witnesses: selected
directory `/r/t` under template root `/r`, containing `a.txt` and `b.txt`,
with a copy-from subdirectory `/r/t/inner` containing one file `x`. -/
def fsFiles : FS :=
  { scanGlob := fun cwd pat =>
      if cwd = "/r/t" ∧ pat = "**/*" then ["a.txt", "b.txt"]
      else if cwd = "/r/t" ∧ pat = "a.txt" then ["a.txt"]
      else if cwd = "/r/t/inner" ∧ pat = "**/*" then ["x"]
      else []
    existsPath := fun p => p == "/r/t/inner"
    isDirStat := fun p => p == "/r/t/inner"
    configAt := fun _ => .absent
    subdirs := fun _ => []
    isDirL := fun _ => false
    isFileL := fun _ => false
    readFileBytes := fun _ => []
    decodeBytes := fun _ => "" }

/-- File rules of the C5 witness: everything included, `a.txt` excluded,
`inner` copied from. -/
def rulesC5 : FileRules :=
  { «include» := some ["**/*"]
    exclude := some ["a.txt"]
    copyFrom := some ["inner"] }

/-- File rules of the C4 counterexample: `a.txt` both excluded and included
by a later include pattern. -/
def rulesC4 : FileRules :=
  { «include» := some ["**/*", "a.txt"]
    exclude := some ["a.txt"]
    copyFrom := none }

/-- File rules of the C1 counterexample and witness: no includes, one
copy-from directory `inner`. -/
def rulesC1 : FileRules :=
  { «include» := some []
    exclude := none
    copyFrom := some ["inner"] }

/-- C5 witness: with `exclude` present or removed, the copy-from entry
`t/inner/x` keeps its source `/r/t/inner/x`. -/
theorem copyFrom_immune_to_exclude_witness :
    "t/inner/x" ∈ keysOM (cfWrites fsFiles "/r" "/r/t"
        (copyFromList (some rulesC5))) ∧
    ∃ v, lookupOM (collectFileMap fsFiles "/r" "/r/t" (some rulesC5))
        "t/inner/x" = some v ∧
      lookupOM (collectFileMap fsFiles "/r" "/r/t"
        (some { rulesC5 with exclude := none })) "t/inner/x" = some v :=
  ⟨by decide,
   copyFrom_immune_to_exclude fsFiles "/r" "/r/t" rulesC5 "t/inner/x"
     (by decide)⟩

/-- C4 counterexample: `a.txt` is matched by the exclude pattern `a.txt`
and also by the include pattern `a.txt` listed after `**/*`, yet it is
absent from the final map — exclusion is never undone by an include
pattern, because all includes run before all excludes. -/
theorem reinclude_restores_counterexample :
    "a.txt" ∈ fsFiles.scanGlob "/r/t" "a.txt" ∧
    "a.txt" ∈ excludeDeletes fsFiles "/r/t" (excludePats (some rulesC4)) ∧
    lookupOM (collectFileMap fsFiles "/r" "/r/t" (some rulesC4))
      "a.txt" = none := by
  refine ⟨by decide, by decide, by decide⟩

/-- C4 amended: a path matched by any exclude pattern is absent from the
final map unless the copy-from phase writes that same key; include
patterns, which all run before the excludes, never restore it. -/
theorem exclude_is_final (fs : FS) (root cfgDir : String) (rules : FileRules)
    (p : String)
    (hexc : ∃ pat ∈ excludePats (some rules), p ∈ fs.scanGlob cfgDir pat)
    (hcf : p ∉ keysOM (cfWrites fs root cfgDir (copyFromList (some rules)))) :
    lookupOM (collectFileMap fs root cfgDir (some rules)) p = none := by
  unfold collectFileMap
  rw [lookupOM_applyWrites, lastAssocW_eq_none _ _ hcf]
  rw [lookupOM_applyDeletes]
  rw [if_pos]
  unfold excludeDeletes
  obtain ⟨pat, hpat, hp⟩ := hexc
  exact List.mem_flatMap.mpr ⟨pat, hpat, hp⟩

/-- C4 amended witness: `a.txt`, matched by the exclude pattern and not
re-introduced by copy-from, is absent from the final map. -/
theorem exclude_is_final_witness :
    (∃ pat ∈ excludePats (some rulesC4),
      "a.txt" ∈ fsFiles.scanGlob "/r/t" pat) ∧
    "a.txt" ∉ keysOM (cfWrites fsFiles "/r" "/r/t"
      (copyFromList (some rulesC4))) ∧
    lookupOM (collectFileMap fsFiles "/r" "/r/t" (some rulesC4))
      "a.txt" = none :=
  ⟨⟨"a.txt", by decide, by decide⟩, by decide,
   exclude_is_final fsFiles "/r" "/r/t" rulesC4 "a.txt"
     ⟨"a.txt", by decide, by decide⟩ (by decide)⟩

/-- The key claim C1 predicts for a copy-from file: the copy-from relative
path followed by the matched relative path.  Stated from the spec's words,
for comparison with the code's `copyKey`. -/
def claimedCopyKeyC1 (copyPath rel : String) : String :=
  copyPath ++ "/" ++ rel

/-- C1 counterexample: template root `/r`, selected directory `/r/t`,
`copyFrom ["inner"]`.  The claim predicts the key `inner/x`
(copy-from relative path ++ matched path); the code instead strips the
template-root prefix from the absolute source and produces `t/inner/x`,
and `inner/x` is absent from the map. -/
theorem copyFrom_keying_counterexample :
    collectFileMap fsFiles "/r" "/r/t" (some rulesC1) =
      [("t/inner/x", "/r/t/inner/x")] ∧
    lookupOM (collectFileMap fsFiles "/r" "/r/t" (some rulesC1))
      (claimedCopyKeyC1 "inner" "x") = none := by
  refine ⟨by decide, by decide⟩

/-- C1 amended: every file enumerated under an existing copy-from directory
is present in the final map, with the absolute source path inside the
copy-from directory as source, but keyed by `copyKey` — the absolute source
path with the first occurrence of the template-root prefix removed — not by
the copy-from relative path. -/
theorem copyFrom_keying (fs : FS) (root cfgDir : String) (rules : FileRules)
    (k : String)
    (hk : k ∈ keysOM (cfWrites fs root cfgDir (copyFromList (some rules)))) :
    ∃ v, lookupOM (collectFileMap fs root cfgDir (some rules)) k = some v ∧
      (k, v) ∈ cfWrites fs root cfgDir (copyFromList (some rules)) ∧
      k = copyKey root v := by
  obtain ⟨v, hv⟩ := lastAssocW_isSome _ _ hk
  have hmem := lastAssocW_mem _ _ _ hv
  refine ⟨v, ?_, hmem, cfWrites_key fs root cfgDir _ (k, v) hmem⟩
  unfold collectFileMap
  rw [lookupOM_applyWrites, hv]

/-- C1 amended witness: the copy-from file `x` of `/r/t/inner` lands in the
map under `t/inner/x` with source `/r/t/inner/x`. -/
theorem copyFrom_keying_witness :
    "t/inner/x" ∈ keysOM (cfWrites fsFiles "/r" "/r/t"
        (copyFromList (some rulesC1))) ∧
    ∃ v, lookupOM (collectFileMap fsFiles "/r" "/r/t" (some rulesC1))
        "t/inner/x" = some v ∧
      ("t/inner/x", v) ∈ cfWrites fsFiles "/r" "/r/t"
        (copyFromList (some rulesC1)) ∧
      "t/inner/x" = copyKey "/r" v :=
  ⟨by decide,
   copyFrom_keying fsFiles "/r" "/r/t" rulesC1 "t/inner/x" (by decide)⟩

/-! ## Claim C6: the template selector -/

/-- C6: whenever the selector returns a directory, that directory has no
`creator.json` of its own or no children — it never stops at a node having
both. -/
theorem selectTemplateDir_final (choices : List String) (node : DirNode)
    (result : DirNode) (h : selectTemplateDir node choices = some result) :
    result.hasConfig = false ∨ result.children = [] := by
  induction choices generalizing node with
  | nil =>
    unfold selectTemplateDir at h
    by_cases h1 : node.hasConfig = false
    · rw [if_pos h1] at h
      cases h
      exact .inl h1
    · rw [if_neg h1] at h
      by_cases h2 : node.children.isEmpty
      · rw [if_pos h2] at h
        cases h
        exact .inr (List.isEmpty_iff.mp h2)
      · rw [if_neg h2] at h
        cases h
  | cons pick rest ih =>
    unfold selectTemplateDir at h
    by_cases h1 : node.hasConfig = false
    · rw [if_pos h1] at h
      cases h
      exact .inl h1
    · rw [if_neg h1] at h
      by_cases h2 : node.children.isEmpty
      · rw [if_pos h2] at h
        cases h
        exact .inr (List.isEmpty_iff.mp h2)
      · rw [if_neg h2] at h
        have h' : (match node.children.find? (fun p => p.1 == pick) with
            | some (_, child) => selectTemplateDir child rest
            | none => none) = some result := h
        rcases hfind : node.children.find? (fun p => p.1 == pick) with _ | q
        · rw [hfind] at h'
          cases h'
        · rw [hfind] at h'
          exact ih q.2 h'

/-- The C6 witness tree: a root with a configuration and one child `web`
without one. -/
def treeC6 : DirNode :=
  .mk "." "/t" true [("web", .mk "web" "/t/web" false [])]

/-- C6 witness: picking `web` ends at the configless leaf. -/
theorem selectTemplateDir_final_witness :
    selectTemplateDir treeC6 ["web"] = some (DirNode.mk "web" "/t/web" false []) ∧
    ((DirNode.mk "web" "/t/web" false []).hasConfig = false ∨
      (DirNode.mk "web" "/t/web" false []).children = []) :=
  ⟨rfl, selectTemplateDir_final ["web"] treeC6 _ rfl⟩

/-! ## Claim C7: binary detection in the renderer/copier -/

/-- `isBinaryBuffer` is exactly "some zero byte within the first 8000". -/
theorem isBinaryBuffer_iff (b : List Nat) :
    isBinaryBuffer b = true ↔
      ∃ i, ∃ h : i < min 8000 b.length, b[i] = 0 := by
  unfold isBinaryBuffer
  rw [List.any_eq_true]
  constructor
  · rintro ⟨x, hx, hxz⟩
    obtain ⟨i, hm, rfl⟩ := List.mem_take_iff_getElem.mp hx
    exact ⟨i, hm, by simpa using hxz⟩
  · rintro ⟨i, hm, hz⟩
    exact ⟨b[i], List.mem_take_iff_getElem.mpr ⟨i, hm, rfl⟩, by simp [hz]⟩

/-- C7: a non-skipped regular file is copied byte-for-byte exactly when a
zero byte occurs within its first 8000 bytes, and substitution-rendered
otherwise — whatever the buffer holds beyond byte 8000. -/
theorem copyEntry_binary_detection (fs : FS) (out : String)
    (data : String → Option JsVal) (target source : String)
    (hskip1 : isSubPath target ".git" = false)
    (hskip2 : strEnds "creator.json" target = false)
    (hdir : fs.isDirL source = false)
    (hfile : fs.isFileL source = true) :
    ((∃ i, ∃ h : i < min 8000 (fs.readFileBytes source).length,
        (fs.readFileBytes source)[i] = 0) →
      copyEntry fs out data target source =
        some (.writeBin (joinAbs out target) (fs.readFileBytes source))) ∧
    ((∀ i (h : i < min 8000 (fs.readFileBytes source).length),
        (fs.readFileBytes source)[i] ≠ 0) →
      copyEntry fs out data target source =
        some (.writeText (joinAbs out target)
          (renderTemplate (fs.decodeBytes (fs.readFileBytes source)) data))) := by
  have hstep : copyEntry fs out data target source =
      if isBinaryBuffer (fs.readFileBytes source) = true then
        some (.writeBin (joinAbs out target) (fs.readFileBytes source))
      else
        some (.writeText (joinAbs out target)
          (renderTemplate (fs.decodeBytes (fs.readFileBytes source)) data)) := by
    unfold copyEntry
    rw [if_neg (by simp [hskip1]), if_neg (by simp [hskip2]),
      if_neg (by simp [hdir]), if_pos hfile]
  constructor
  · intro hz
    rw [hstep, if_pos ((isBinaryBuffer_iff _).mpr hz)]
  · intro hz
    rw [hstep, if_neg ?hnb]
    case hnb =>
      intro hb
      obtain ⟨i, hm, hiz⟩ := (isBinaryBuffer_iff _).mp hb
      exact hz i hm hiz

/-- Filesystem fixture for the renderer/copier witnesses: a binary file
`/r/t/logo.png` (zero byte at offset 1) and a text file `/r/t/a.txt`. -/
def fsCopy : FS :=
  { scanGlob := fun _ _ => []
    existsPath := fun _ => false
    isDirStat := fun _ => false
    configAt := fun _ => .absent
    subdirs := fun _ => []
    isDirL := fun _ => false
    isFileL := fun p => p == "/r/t/logo.png" || p == "/r/t/a.txt"
    readFileBytes := fun p =>
      if p = "/r/t/logo.png" then [137, 0, 42]
      else if p = "/r/t/a.txt" then [104, 105]
      else []
    decodeBytes := fun b => if b = [104, 105] then "hi" else "" }

/-- C7 witness: the buffer with a zero byte is written binary, the
zero-free buffer is rendered. -/
theorem copyEntry_binary_detection_witness :
    isSubPath "logo.png" ".git" = false ∧
    strEnds "creator.json" "logo.png" = false ∧
    fsCopy.isDirL "/r/t/logo.png" = false ∧
    fsCopy.isFileL "/r/t/logo.png" = true ∧
    copyEntry fsCopy "/out" (fun _ => none) "logo.png" "/r/t/logo.png" =
      some (.writeBin (joinAbs "/out" "logo.png")
        (fsCopy.readFileBytes "/r/t/logo.png")) ∧
    copyEntry fsCopy "/out" (fun _ => none) "a.txt" "/r/t/a.txt" =
      some (.writeText (joinAbs "/out" "a.txt")
        (renderTemplate (fsCopy.decodeBytes (fsCopy.readFileBytes "/r/t/a.txt"))
          (fun _ => none))) :=
  ⟨by decide, by decide, by decide, by decide,
   (copyEntry_binary_detection fsCopy "/out" (fun _ => none) "logo.png"
       "/r/t/logo.png" (by decide) (by decide) (by decide) (by decide)).1
     ⟨1, by decide, by decide⟩,
   (copyEntry_binary_detection fsCopy "/out" (fun _ => none) "a.txt"
       "/r/t/a.txt" (by decide) (by decide) (by decide) (by decide)).2
     (by decide)⟩

/-! ## Claim C9: the skip rules of the renderer/copier -/

/-- The skip condition claim C9 asserts, stated from the spec's words: the
output-relative path is a `.git` directory or lies under one at any depth,
or ends with the configuration file name. -/
def claimedSkipC9 (target : String) : Bool :=
  (rawSegs target).any (fun seg => seg == ".git".data) ||
    strEnds "creator.json" target

/-- Filesystem fixture for the C9 theorems: `/r/t/sub/.git/x` is a regular
file (one zero byte), `/out/.git` a directory. -/
def fsC9 : FS :=
  { scanGlob := fun _ _ => []
    existsPath := fun _ => false
    isDirStat := fun _ => false
    configAt := fun _ => .absent
    subdirs := fun _ => []
    isDirL := fun p => p == "/r/t/.git"
    isFileL := fun p => p == "/r/t/sub/.git/x"
    readFileBytes := fun p => if p = "/r/t/sub/.git/x" then [0] else []
    decodeBytes := fun _ => "" }

/-- C9 counterexample: `sub/.git/x` lies under a `.git` directory at depth
one, so the claim says it is skipped; the code's `isSubPath` only tests the
path's leading segment, and the entry is copied. -/
theorem skip_nested_git_counterexample :
    claimedSkipC9 "sub/.git/x" = true ∧
    copyEntry fsC9 "/out" (fun _ => none) "sub/.git/x" "/r/t/sub/.git/x" =
      some (.writeBin (joinAbs "/out" "sub/.git/x") [0]) := by
  refine ⟨by decide, by decide⟩

/-- C9 amended: an entry whose source is a regular file or a directory is
skipped exactly when its output-relative path is `.git`, starts with
`.git/` or `.git\` (the top-level `.git` only — deeper `.git` segments are
not caught), or ends with the configuration file name. -/
theorem copyEntry_skip_iff (fs : FS) (out : String)
    (data : String → Option JsVal) (target source : String)
    (hsrc : fs.isDirL source = true ∨ fs.isFileL source = true) :
    (copyEntry fs out data target source = none ↔
      (target = ".git" ∨ strStarts ".git/" target = true ∨
        strStarts ".git\x5c" target = true ∨
        strEnds "creator.json" target = true)) := by
  unfold copyEntry
  have e1 : (".git" ++ "/" : String) = ".git/" := rfl
  have e2 : (".git" ++ "\x5c" : String) = ".git\x5c" := rfl
  by_cases h1 : isSubPath target ".git" = true
  · rw [if_pos h1]
    simp only [isSubPath, Bool.or_eq_true, beq_iff_eq, e1, e2] at h1
    constructor
    · intro _
      rcases h1 with (h1 | h1) | h1
      · exact .inl h1
      · exact .inr (.inl h1)
      · exact .inr (.inr (.inl h1))
    · intro _
      rfl
  · rw [if_neg h1]
    simp only [isSubPath, Bool.or_eq_true, beq_iff_eq, e1, e2, not_or] at h1
    obtain ⟨⟨ha, hb⟩, hc⟩ := h1
    by_cases h2 : strEnds "creator.json" target = true
    · rw [if_pos h2]
      simp [h2]
    · rw [if_neg h2]
      have hrhs : ¬ (target = ".git" ∨ strStarts ".git/" target = true ∨
          strStarts ".git\x5c" target = true ∨
          strEnds "creator.json" target = true) := by
        push_neg
        exact ⟨ha, hb, hc, h2⟩
      by_cases hd : fs.isDirL source = true
      · rw [if_pos hd]
        simp [hrhs]
      · rw [if_neg hd]
        have hf : fs.isFileL source = true := by
          rcases hsrc with hs | hs
          · exact absurd hs hd
          · exact hs
        rw [if_pos hf]
        by_cases hb : isBinaryBuffer (fs.readFileBytes source) = true
        · rw [if_pos hb]
          simp [hrhs]
        · rw [if_neg hb]
          simp [hrhs]

/-- C9 amended witness: the top-level `.git/config` entry (a directory
source) is skipped, matching the amended condition. -/
theorem copyEntry_skip_iff_witness :
    (fsC9.isDirL "/r/t/.git" = true ∨ fsC9.isFileL "/r/t/.git" = true) ∧
    (copyEntry fsC9 "/out" (fun _ => none) ".git" "/r/t/.git" = none ↔
      (".git" = ".git" ∨ strStarts ".git/" ".git" = true ∨
        strStarts ".git\x5c" ".git" = true ∨
        strEnds "creator.json" ".git" = true)) :=
  ⟨.inl (by decide),
   copyEntry_skip_iff fsC9 "/out" (fun _ => none) ".git" "/r/t/.git"
     (.inl (by decide))⟩

/-! ## Claim C8: placeholder substitution -/

/-- The whitespace characters recognised by `isJsWs`, as a list. -/
def wsCharsList : List Char :=
  [' ', '\t', '\n', '\r', '\x0b', '\x0c', '\u00a0', '\ufeff']

theorem isJsWs_iff_mem (c : Char) : isJsWs c = true ↔ c ∈ wsCharsList := by
  simp [isJsWs, wsCharsList, or_assoc]

theorem ws_not_identChar {c : Char} (h : isJsWs c = true) :
    identChar c = false := by
  have hm := (isJsWs_iff_mem c).mp h
  have hall : ∀ x ∈ wsCharsList, identChar x = false := by decide
  exact hall c hm

theorem identChar_not_ws {c : Char} (h : identChar c = true) :
    isJsWs c = false := by
  by_contra hx
  simp only [Bool.not_eq_false] at hx
  rw [ws_not_identChar hx] at h
  exact absurd h (by decide)

theorem parsePH_length (cs : List Char) (k : String) (r : List Char)
    (h : parsePH cs = some (k, r)) : r.length ≤ cs.length := by
  have hsuf : (((cs.dropWhile isJsWs).dropWhile identChar).dropWhile
      isJsWs).length ≤ cs.length :=
    le_trans (List.dropWhile_suffix _).length_le
      (le_trans (List.dropWhile_suffix _).length_le
        (List.dropWhile_suffix _).length_le)
  unfold parsePH at h
  split at h
  · cases h
  · split at h
    next rest heq =>
      simp only [Option.some.injEq, Prod.mk.injEq] at h
      rw [heq] at hsuf
      simp only [List.length_cons] at hsuf
      have hr := h.2
      subst hr
      omega
    next => cases h

theorem parsePH_spec (ws1 ident ws2 suf : List Char)
    (hws1 : ∀ c ∈ ws1, isJsWs c = true) (hws2 : ∀ c ∈ ws2, isJsWs c = true)
    (hid1 : ident ≠ []) (hid2 : ∀ c ∈ ident, identChar c = true) :
    parsePH (ws1 ++ (ident ++ (ws2 ++ ('%' :: '>' :: suf)))) =
      some (String.mk ident, suf) := by
  have h1 : (ws1 ++ (ident ++ (ws2 ++ ('%' :: '>' :: suf)))).dropWhile isJsWs
      = ident ++ (ws2 ++ ('%' :: '>' :: suf)) := by
    rw [List.dropWhile_append_of_pos hws1]
    rcases ident with _ | ⟨i0, irest⟩
    · exact absurd rfl hid1
    · rw [List.cons_append, List.dropWhile_cons,
        identChar_not_ws (hid2 i0 (List.mem_cons_self _ _))]
      simp
  have htk : (ws2 ++ ('%' :: '>' :: suf)).takeWhile identChar = [] := by
    rcases ws2 with _ | ⟨w0, wrest⟩
    · rw [List.nil_append, List.takeWhile_cons,
        show identChar '%' = false from by decide]
      simp
    · rw [List.cons_append, List.takeWhile_cons,
        ws_not_identChar (hws2 w0 (List.mem_cons_self _ _))]
      simp
  have h2 : (ident ++ (ws2 ++ ('%' :: '>' :: suf))).takeWhile identChar =
      ident := by
    rw [List.takeWhile_append_of_pos (fun c hc => hid2 c hc), htk,
      List.append_nil]
  have h3 : ((ident ++ (ws2 ++ ('%' :: '>' :: suf))).dropWhile
      identChar).dropWhile isJsWs = '%' :: '>' :: suf := by
    rw [List.dropWhile_append_of_pos (fun c hc => hid2 c hc)]
    have hdw : (ws2 ++ ('%' :: '>' :: suf)).dropWhile identChar =
        ws2 ++ ('%' :: '>' :: suf) := by
      rcases ws2 with _ | ⟨w0, wrest⟩
      · rw [List.nil_append, List.dropWhile_cons,
          show identChar '%' = false from by decide]
        simp
      · rw [List.cons_append, List.dropWhile_cons,
          ws_not_identChar (hws2 w0 (List.mem_cons_self _ _))]
        simp
    rw [hdw, List.dropWhile_append_of_pos hws2, List.dropWhile_cons,
      show isJsWs '%' = false from by decide]
    simp
  unfold parsePH
  rw [h1, h2, h3, if_neg hid1]
  rfl

/-- The unfolding equation of `renderAux` at positive fuel and a non-empty
character list. -/
theorem renderAux_succ (data : String → Option JsVal) (fuel : Nat) (c : Char)
    (rest : List Char) :
    renderAux data (fuel + 1) (c :: rest) =
      if ['<', '%', '='].isPrefixOf (c :: rest) then
        match parsePH ((c :: rest).drop 3) with
        | some (key, rest') =>
          (promptValueStr data key).data ++ renderAux data fuel rest'
        | none => c :: renderAux data fuel rest
      else c :: renderAux data fuel rest := by
  rw [renderAux]

theorem renderAux_cons_ne (data : String → Option JsVal) (fuel : Nat)
    (c : Char) (rest : List Char) (hc : c ≠ '<') :
    renderAux data (fuel + 1) (c :: rest) = c :: renderAux data fuel rest := by
  rw [renderAux_succ]
  rw [if_neg]
  simp only [List.isPrefixOf, Bool.and_eq_true, beq_iff_eq]
  intro hx
  exact hc hx.1.symm

theorem renderAux_match_step (data : String → Option JsVal) (fuel : Nat)
    (rest : List Char) (key : String) (rest' : List Char)
    (hp : parsePH rest = some (key, rest')) :
    renderAux data (fuel + 1) ('<' :: '%' :: '=' :: rest) =
      (promptValueStr data key).data ++ renderAux data fuel rest' := by
  rw [renderAux_succ]
  rw [if_pos (by simp [List.isPrefixOf])]
  rw [show ('<' :: '%' :: '=' :: rest).drop 3 = rest from rfl, hp]

theorem renderAux_append_no_lt (data : String → Option JsVal)
    (pre : List Char) :
    ∀ (fuel : Nat) (tail : List Char), pre.length + tail.length ≤ fuel →
      (∀ c ∈ pre, c ≠ '<') →
      renderAux data fuel (pre ++ tail) =
        pre ++ renderAux data (fuel - pre.length) tail := by
  induction pre with
  | nil =>
    intro fuel tail _ _
    simp
  | cons c pre' ih =>
    intro fuel tail hf hpre
    rcases fuel with _ | f
    · simp only [List.length_cons] at hf
      omega
    · rw [List.cons_append,
        renderAux_cons_ne data f c (pre' ++ tail)
          (hpre c (List.mem_cons_self _ _)),
        ih f tail (by simp only [List.length_cons] at hf; omega)
          (fun x hx => hpre x (List.mem_cons_of_mem _ hx))]
      rw [show (f + 1) - (c :: pre').length = f - pre'.length from by
        simp only [List.length_cons]; omega]
      rfl

theorem renderAux_fuel_irrel (data : String → Option JsVal) :
    ∀ (fuel₁ : Nat) (cs : List Char) (fuel₂ : Nat),
      cs.length ≤ fuel₁ → cs.length ≤ fuel₂ →
      renderAux data fuel₁ cs = renderAux data fuel₂ cs := by
  intro fuel₁
  induction fuel₁ with
  | zero =>
    intro cs fuel₂ h1 _
    have hcs : cs = [] := List.length_eq_zero.mp (Nat.le_zero.mp h1)
    subst hcs
    rcases fuel₂ with _ | f <;> rfl
  | succ f₁ ih =>
    intro cs fuel₂ h1 h2
    rcases cs with _ | ⟨c, rest⟩
    · rcases fuel₂ with _ | f <;> rfl
    · rcases fuel₂ with _ | f₂
      · simp only [List.length_cons] at h2
        omega
      · rw [renderAux_succ data f₁, renderAux_succ data f₂]
        simp only [List.length_cons] at h1 h2
        by_cases hpfx : ['<', '%', '='].isPrefixOf (c :: rest) = true
        · rw [if_pos hpfx, if_pos hpfx]
          rcases hp : parsePH ((c :: rest).drop 3) with _ | ⟨key, rest'⟩
          · show c :: renderAux data f₁ rest = c :: renderAux data f₂ rest
            rw [ih rest f₂ (by omega) (by omega)]
          · show (promptValueStr data key).data ++ renderAux data f₁ rest' =
              (promptValueStr data key).data ++ renderAux data f₂ rest'
            have hlen := parsePH_length _ _ _ hp
            have hdrop2 : ((c :: rest).drop 3).length ≤ rest.length := by
              rcases rest with _ | ⟨a, as⟩
              · simp
              · simp only [List.drop_succ_cons, List.length_drop,
                  List.length_cons]
                omega
            rw [ih rest' f₂ (by omega) (by omega)]
        · rw [if_neg hpfx, if_neg hpfx]
          rw [ih rest f₂ (by omega) (by omega)]

/-- C8: rendering replaces each placeholder `<%=` ws* identifier ws* `%>`
(identifier chars: letters, digits, `.`, `_`, `-`) with the string form of
the bound prompt value, or the empty string when the identifier is unbound;
the text before the placeholder (here: free of `<`) is copied verbatim and
rendering continues after the closing `%>`. -/
theorem renderTemplate_substitutes (pre ws1 ident ws2 suf : String)
    (data : String → Option JsVal)
    (hpre : ∀ c ∈ pre.data, c ≠ '<')
    (hws1 : ∀ c ∈ ws1.data, isJsWs c = true)
    (hws2 : ∀ c ∈ ws2.data, isJsWs c = true)
    (hid1 : ident.data ≠ [])
    (hid2 : ∀ c ∈ ident.data, identChar c = true) :
    renderTemplate (pre ++ "<%=" ++ ws1 ++ ident ++ ws2 ++ "%>" ++ suf) data =
      pre ++ promptValueStr data ident ++ renderTemplate suf data := by
  have hL : (pre ++ "<%=" ++ ws1 ++ ident ++ ws2 ++ "%>" ++ suf).data =
      pre.data ++ ('<' :: '%' :: '=' ::
        (ws1.data ++ (ident.data ++ (ws2.data ++ ('%' :: '>' :: suf.data))))) := by
    simp only [String.data_append, List.append_assoc,
      show ("<%=" : String).data = ['<', '%', '='] from rfl,
      show ("%>" : String).data = ['%', '>'] from rfl]
    simp
  unfold renderTemplate
  rw [hL]
  rw [renderAux_append_no_lt data pre.data _ _
    (by simp [List.length_append]) hpre]
  rw [show (pre.data ++ ('<' :: '%' :: '=' ::
      (ws1.data ++ (ident.data ++ (ws2.data ++
        ('%' :: '>' :: suf.data)))))).length - pre.data.length =
      ((ws1.data ++ (ident.data ++ (ws2.data ++
        ('%' :: '>' :: suf.data)))).length + 2) + 1 from by
    simp [List.length_append]]
  rw [renderAux_match_step data _ _ (String.mk ident.data) suf.data
    (parsePH_spec ws1.data ident.data ws2.data suf.data hws1 hws2 hid1 hid2)]
  rw [renderAux_fuel_irrel data _ suf.data suf.data.length
    (by simp [List.length_append]; omega) (le_refl _)]
  rw [show String.mk ident.data = ident from rfl]
  show String.mk (pre.data ++ ((promptValueStr data ident).data ++
      (renderTemplate suf data).data)) =
    pre ++ promptValueStr data ident ++ renderTemplate suf data
  rw [show pre.data ++ ((promptValueStr data ident).data ++
      (renderTemplate suf data).data) =
      (pre ++ promptValueStr data ident ++ renderTemplate suf data).data from by
    simp [List.append_assoc]]

/-- The prompt values of the C8 witness: `name` bound to `"demo"`. -/
def dataW (key : String) : Option JsVal :=
  if key = "name" then some (.str "demo") else none

/-- C8 witness: `x<%= name %>y` renders `name` to `demo`; the concrete
scenario `<%= name %><%=missing%>` evaluates to `demo` (the unbound
`missing` becomes the empty string). -/
theorem renderTemplate_substitutes_witness :
    (∀ c ∈ ("x" : String).data, c ≠ '<') ∧
    ("name" : String).data ≠ [] ∧
    renderTemplate ("x" ++ "<%=" ++ " " ++ "name" ++ " " ++ "%>" ++ "y")
        dataW = "x" ++ promptValueStr dataW "name" ++ renderTemplate "y" dataW ∧
    renderTemplate "<%= name %><%=missing%>" dataW = "demo" :=
  ⟨by decide, by decide,
   renderTemplate_substitutes "x" " " "name" " " "y" dataW (by decide)
     (by decide) (by decide) (by decide) (by decide),
   by decide⟩

/-! ## Claim C2: the cascade visited set -/

theorem chainUp_nodup (root : String) :
    ∀ (fuel : Nat) (current : String) (chain : List String),
      chain.Nodup → root ∉ chain →
      (chainUp root fuel current chain).Nodup ∧
        root ∉ chainUp root fuel current chain := by
  intro fuel
  induction fuel with
  | zero =>
    intro current chain h1 h2
    exact ⟨h1, h2⟩
  | succ f ih =>
    intro current chain h1 h2
    unfold chainUp
    by_cases hstop : current = "" ∨ current = root ∨ current ∈ chain
    · rw [if_pos hstop]
      exact ⟨h1, h2⟩
    · rw [if_neg hstop]
      push_neg at hstop
      refine ih (parentOf current) (current :: chain) ?_ ?_
      · exact List.nodup_cons.mpr ⟨hstop.2.2, h1⟩
      · intro hmem
        rcases List.mem_cons.mp hmem with hmem | hmem
        · exact hstop.2.1 hmem.symm
        · exact h2 hmem

theorem loadChain_paths (fs : FS) (sel : String) :
    ∀ (pcs : List String) (acc : CollectResult) (r : CollectResult),
      loadChainConfigs fs sel pcs acc = .ok r →
      ∃ extra, r.paths = acc.paths ++ extra ∧ extra.Sublist pcs := by
  intro pcs
  induction pcs with
  | nil =>
    intro acc r h
    cases h
    exact ⟨[], by simp, List.Sublist.refl _⟩
  | cons d rest ih =>
    intro acc r h
    unfold loadChainConfigs at h
    rcases hc : fs.configAt d with _ | _ | c
    · rw [hc] at h
      obtain ⟨extra, he, hs⟩ := ih acc r h
      exact ⟨extra, he, hs.cons d⟩
    · rw [hc] at h
      cases h
    · rw [hc] at h
      obtain ⟨extra, he, hs⟩ := ih _ r h
      refine ⟨d :: extra, ?_, hs.cons₂ d⟩
      simpa [List.append_assoc] using he

theorem collectCopyFroms_invariant (fs : FS) (sel root : String) :
    ∀ (cps : List String) (visited processed : List String)
      (acc : CollectResult) (r : CollectResult),
      collectCopyFroms fs sel cps visited processed acc = .ok r →
      (acc.paths.filter (fun p => p != root)).Nodup →
      acc.paths.count root ≤ (if root ∈ visited then 2 else 1) →
      (∀ p ∈ acc.paths, p = root ∨ p ∈ visited) →
      (r.paths.filter (fun p => p != root)).Nodup ∧
        r.paths.count root ≤ 2 := by
  intro cps
  induction cps with
  | nil =>
    intro visited processed acc r h h1 h2 h3
    cases h
    refine ⟨h1, ?_⟩
    by_cases hv : root ∈ visited
    · rw [if_pos hv] at h2
      exact h2
    · rw [if_neg hv] at h2
      omega
  | cons cp rest ih =>
    intro visited processed acc r h h1 h2 h3
    unfold collectCopyFroms at h
    by_cases hg : resolveJs sel cp ∉ visited ∧ resolveJs sel cp ∉ processed ∧
        fs.existsPath (resolveJs sel cp) = true
    · rw [if_pos hg] at h
      rcases hc : fs.configAt (resolveJs sel cp) with _ | _ | c
      · rw [hc] at h
        refine ih _ _ _ _ h h1 ?_ ?_
        · by_cases hv : root ∈ visited
          · rw [if_pos hv] at h2
            rw [if_pos (List.mem_cons_of_mem _ hv)]
            exact h2
          · rw [if_neg hv] at h2
            by_cases hv2 : root ∈ resolveJs sel cp :: visited
            · rw [if_pos hv2]
              omega
            · rw [if_neg hv2]
              exact h2
        · intro p hp
          rcases h3 p hp with hp' | hp'
          · exact .inl hp'
          · exact .inr (List.mem_cons_of_mem _ hp')
      · rw [hc] at h
        cases h
      · rw [hc] at h
        refine ih _ _ _ _ h ?_ ?_ ?_
        · show ((acc.paths ++ [resolveJs sel cp]).filter
            (fun p => p != root)).Nodup
          rw [List.filter_append]
          by_cases hrp : resolveJs sel cp = root
          · rw [show ([resolveJs sel cp].filter (fun p => p != root)) = []
              from by simp [hrp]]
            simpa using h1
          · rw [show ([resolveJs sel cp].filter (fun p => p != root)) =
              [resolveJs sel cp] from by simp [hrp]]
            rw [List.nodup_append]
            refine ⟨h1, by simp, ?_⟩
            intro a ha hmem
            have ha' := List.mem_filter.mp ha
            have haroot : a ≠ root := by simpa using ha'.2
            rcases h3 a ha'.1 with h' | h'
            · exact haroot h'
            · rw [List.mem_singleton] at hmem
              exact hg.1 (hmem ▸ h')
        · show (acc.paths ++ [resolveJs sel cp]).count root ≤ _
          rw [List.count_append]
          by_cases hrp : resolveJs sel cp = root
          · have hv : root ∉ visited := by
              rw [← hrp]
              exact hg.1
            rw [if_neg hv] at h2
            rw [if_pos (by rw [← hrp]; exact List.mem_cons_self _ _)]
            have : ([resolveJs sel cp].count root) ≤ 1 := by
              have := List.count_le_length root [resolveJs sel cp]
              simpa using this
            omega
          · rw [show ([resolveJs sel cp].count root) = 0 from by
              simp [List.count_singleton, hrp]]
            by_cases hv : root ∈ visited
            · rw [if_pos hv] at h2
              rw [if_pos (List.mem_cons_of_mem _ hv)]
              omega
            · rw [if_neg hv] at h2
              rw [if_neg (by
                intro hmem
                rcases List.mem_cons.mp hmem with hmem | hmem
                · exact hrp hmem.symm
                · exact hv hmem)]
              omega
        · intro p hp
          rcases List.mem_append.mp hp with hp' | hp'
          · rcases h3 p hp' with h' | h'
            · exact .inl h'
            · exact .inr (List.mem_cons_of_mem _ h')
          · rw [List.mem_singleton] at hp'
            exact .inr (hp' ▸ List.mem_cons_self _ _)
    · rw [if_neg hg] at h
      exact ih _ _ _ _ h h1 h2 h3

/-- C2 amended: in every collected cascade no directory other than the
template root is recorded twice; the template root itself — which the
ancestor loop never adds to the visited set — is recorded at most twice
(once by the chain walk and once more when a copy-from target of the
selected directory resolves to it). -/
theorem collectAllConfigs_visited (fs : FS) (sel root : String)
    (r : CollectResult) (h : collectAllConfigs fs sel root = .ok r) :
    (r.paths.filter (fun p => p != root)).Nodup ∧
      r.paths.count root ≤ 2 := by
  unfold collectAllConfigs at h
  rcases hload : loadChainConfigs fs sel
      (root :: chainUp root (sel.length + 2) sel [])
      { configs := [], paths := [], selectedDirConfig := none }
    with e | acc
  · rw [hload] at h
    cases h
  · rw [hload] at h
    have hcu := chainUp_nodup root (sel.length + 2) sel [] (by simp) (by simp)
    obtain ⟨extra, he, hs⟩ := loadChain_paths fs sel _ _ _ hload
    have hchainN : (root :: chainUp root (sel.length + 2) sel []).Nodup :=
      List.nodup_cons.mpr ⟨hcu.2, hcu.1⟩
    have hpN : acc.paths.Nodup := by
      rw [he]
      simpa using hs.nodup hchainN
    refine collectCopyFroms_invariant fs sel root _ _ _ _ _ h
      (hpN.filter _) ?_ ?_
    · rw [if_neg hcu.2, he]
      simp only [List.nil_append]
      calc extra.count root
          ≤ (root :: chainUp root (sel.length + 2) sel []).count root :=
            hs.count_le root
        _ = 1 := by
            rw [List.count_cons]
            rw [List.count_eq_zero.mpr hcu.2]
            simp
    · intro p hp
      rw [he] at hp
      simp only [List.nil_append] at hp
      rcases List.mem_cons.mp (hs.subset hp) with h' | h'
      · exact .inl h'
      · exact .inr h'

/-- Root config of the C2 scenario. -/
def cfgRootC2 : CreatorConfig := { name := some "root" }

/-- File rules of the C2 scenario's selected directory: `copyFrom [".."]`
resolves to the template root. -/
def filesC2 : FileRules := { copyFrom := some [".."] }

/-- Selected directory config of the C2 scenario. -/
def cfgSelC2 : CreatorConfig := { files := some filesC2 }

/-- Filesystem fixture for C2: template root `/r` (with a config), selected
directory `/r/t` whose config copies from `..`. -/
def fsC2 : FS :=
  { scanGlob := fun _ _ => []
    existsPath := fun p => p == "/r"
    isDirStat := fun _ => false
    configAt := fun p =>
      if p = "/r" then .valid cfgRootC2
      else if p = "/r/t" then .valid cfgSelC2
      else .absent
    subdirs := fun _ => []
    isDirL := fun _ => false
    isFileL := fun _ => false
    readFileBytes := fun _ => []
    decodeBytes := fun _ => "" }

/-- The collected cascade of the C2 scenario. -/
def resC2 : CollectResult :=
  { configs := [cfgRootC2, cfgSelC2, cfgRootC2]
    paths := ["/r", "/r/t", "/r"]
    selectedDirConfig := some cfgSelC2 }

/-- C2 counterexample: the template root is never added to the visited set,
so when the selected directory `/r/t` declares `copyFrom [".."]` the root
`/r` is processed and recorded a second time — the cascade path list has a
duplicate, contradicting the claimed invariant. -/
theorem cascade_visits_root_twice_counterexample :
    collectAllConfigs fsC2 "/r/t" "/r" = .ok resC2 ∧
    ¬ resC2.paths.Nodup := by
  refine ⟨by rfl, by decide⟩

/-- C2 amended witness: on the same scenario the amended bound holds — the
non-root paths are duplicate-free and the root occurs (exactly) twice. -/
theorem collectAllConfigs_visited_witness :
    collectAllConfigs fsC2 "/r/t" "/r" = .ok resC2 ∧
    ((resC2.paths.filter (fun p => p != "/r")).Nodup ∧
      resC2.paths.count "/r" ≤ 2) :=
  ⟨by rfl, collectAllConfigs_visited fsC2 "/r/t" "/r" resC2 (by rfl)⟩

/-! ## Claim C10: the silent `template` subdirectory redirection -/

/-- C10: when the resolved template root has a `template` entry that is a
directory, `main` silently substitutes that subdirectory as the effective
template root, and the whole downstream pipeline (tree building, selection,
cascade collection) operates on it; otherwise the named root is kept. -/
theorem template_subdir_redirect (fs : FS) (fuel : Nat) (root : String)
    (choices : List String) :
    ((fs.existsPath (joinAbs root "template") = true ∧
        fs.isDirStat (joinAbs root "template") = true) →
      effectiveTemplateRoot fs root = joinAbs root "template" ∧
      mainPrepare fs fuel root choices =
        (selectTemplateDir (buildDirTree fs fuel (joinAbs root "template"))
            choices).map
          (fun sel => (joinAbs root "template",
            collectAllConfigs fs sel.path (joinAbs root "template")))) ∧
    (¬ (fs.existsPath (joinAbs root "template") = true ∧
        fs.isDirStat (joinAbs root "template") = true) →
      effectiveTemplateRoot fs root = root ∧
      mainPrepare fs fuel root choices =
        (selectTemplateDir (buildDirTree fs fuel root) choices).map
          (fun sel => (root, collectAllConfigs fs sel.path root))) := by
  constructor
  · intro hc
    have he : effectiveTemplateRoot fs root = joinAbs root "template" := by
      unfold effectiveTemplateRoot
      rw [if_pos hc]
    refine ⟨he, ?_⟩
    unfold mainPrepare
    rw [he]
  · intro hc
    have he : effectiveTemplateRoot fs root = root := by
      unfold effectiveTemplateRoot
      rw [if_neg hc]
    refine ⟨he, ?_⟩
    unfold mainPrepare
    rw [he]

/-- Filesystem fixture for C10: `/t/template` exists and is a directory. -/
def fsC10 : FS :=
  { scanGlob := fun _ _ => []
    existsPath := fun p => p == "/t/template"
    isDirStat := fun p => p == "/t/template"
    configAt := fun _ => .absent
    subdirs := fun _ => []
    isDirL := fun _ => false
    isFileL := fun _ => false
    readFileBytes := fun _ => []
    decodeBytes := fun _ => "" }

/-- C10 witness: with `/t/template` present the effective root becomes
`/t/template` and the pipeline runs on it. -/
theorem template_subdir_redirect_witness :
    (fsC10.existsPath (joinAbs "/t" "template") = true ∧
      fsC10.isDirStat (joinAbs "/t" "template") = true) ∧
    (effectiveTemplateRoot fsC10 "/t" = joinAbs "/t" "template" ∧
      mainPrepare fsC10 1 "/t" [] =
        (selectTemplateDir (buildDirTree fsC10 1 (joinAbs "/t" "template"))
            []).map
          (fun sel => (joinAbs "/t" "template",
            collectAllConfigs fsC10 sel.path (joinAbs "/t" "template")))) :=
  ⟨⟨by decide, by decide⟩,
   (template_subdir_redirect fsC10 1 "/t" []).1 ⟨by decide, by decide⟩⟩

end PjCreater
